import Mathlib

/-!
Verification development for `instatimefixer.py`, a binary patch engine that
locates several encodings of a timestamp inside a media file and rewrites them
in place.

Modelling conventions (shallow embedding of the Python source):
* A file is a `List Nat` of byte values; `f.read`/`f.seek` become `List.drop`
  and `List.take` (Python reads return fewer bytes near end of file, which
  `take` models exactly); `f.write` at an offset becomes a list splice.
* Python strings holding the 14-digit timestamps are lists of character codes
  (`List Nat`), so `str.encode("ascii")` is the identity and slicing is
  `take`/`drop`.
* Machine integers are `Nat`/`Int`; the bitwise operators `&`, `|`, `<<`, `>>`
  of the source map to `&&&`, `|||`, `<<<`, `>>>` on `Nat`.
* Fallible code returns `Option`/`Except PyErr`; an `Except.error` models an
  uncaught Python exception propagating out of `patch_file`.
* Loops whose Python termination argument is not structural are written with
  an explicit fuel argument large enough to never run out; adequacy lemmas
  below relate the fueled functions to their specifications.
-/

/-- Python exceptions that the modelled code can raise (uncaught unless noted). -/
inductive PyErr where
  | structError
  | valueError
  | indexError
deriving DecidableEq, Repr

/-- Seconds between 1904-01-01 and 1970-01-01 (`_MP4_EPOCH_OFFSET` in the source). -/
def _MP4_EPOCH_OFFSET : Nat := 2082844800

/-- Read window size of the chunked scanner (`_CHUNK_SIZE = 64 * 1024 * 1024`). -/
def _CHUNK_SIZE : Nat := 64 * 1024 * 1024

/-- Body of `_encode_varint`'s `while value > 0x7F` loop.  The first argument is
fuel; `_encode_varint` passes `value` itself, which bounds the iteration count
since `value >>> 7` strictly decreases while `value > 0x7F`. -/
def encodeAux : Nat → Nat → List Nat
  | 0, value => [value]
  | fuel + 1, value =>
    if value ≤ 0x7F then [value]
    else ((value &&& 0x7F) ||| 0x80) :: encodeAux fuel (value >>> 7)

/-- Model of `_encode_varint`: protobuf base-128 varint encoding. -/
def _encode_varint (value : Nat) : List Nat := encodeAux value value

/-- Body of `_decode_varint`'s loop, walking the byte list from position `pos`.
Running out of bytes models the `IndexError` raised by `data[pos]`. -/
def decodeGo : List Nat → Nat → Nat → Nat → Option (Nat × Nat)
  | [], _, _, _ => none
  | byte :: rest, pos, result, shift =>
    let result' := result ||| ((byte &&& 0x7F) <<< shift)
    if byte &&& 0x80 = 0 then some (result', pos + 1)
    else decodeGo rest (pos + 1) result' (shift + 7)

/-- Model of `_decode_varint`: returns `(value, new_pos)`, or `none` for the
`IndexError` that callers catch. -/
def _decode_varint (data : List Nat) (pos : Nat) : Option (Nat × Nat) :=
  decodeGo (data.drop pos) pos 0 0

/-!  Calendar arithmetic.  `patch_file` uses Python `datetime` (UTC, proleptic
Gregorian) only to (a) convert the two 14-digit timestamps to Unix epoch
seconds and (b) recover the calendar year of an MP4 atom time.  The two
functions below are the standard days-from-civil / civil-from-days algorithms
over `Int` with flooring division, which is exactly CPython's arithmetic. -/

/-- Days from 1970-01-01 of the proleptic Gregorian date `y-m-d` (UTC). -/
def daysFromCivil (y m d : Int) : Int :=
  let y' := if m ≤ 2 then y - 1 else y
  let era := y'.fdiv 400
  let yoe := y' - era * 400
  let mp := if 2 < m then m - 3 else m + 9
  let doy := (153 * mp + 2).fdiv 5 + d - 1
  let doe := yoe * 365 + yoe.fdiv 4 - yoe.fdiv 100 + doy
  era * 146097 + doe - 719468

/-- Proleptic Gregorian `(year, month, day)` of a day count from 1970-01-01. -/
def civilFromDays (z0 : Int) : Int × Int × Int :=
  let z := z0 + 719468
  let era := z.fdiv 146097
  let doe := z - era * 146097
  let yoe := (doe - doe.fdiv 1460 + doe.fdiv 36524 - doe.fdiv 146096).fdiv 365
  let y := yoe + era * 400
  let doy := doe - (365 * yoe + yoe.fdiv 4 - yoe.fdiv 100)
  let mp := (5 * doy + 2).fdiv 153
  let d := doy - (153 * mp + 2).fdiv 5 + 1
  let m := if mp < 10 then mp + 3 else mp - 9
  (if m ≤ 2 then y + 1 else y, m, d)

/-- Year of `datetime.fromtimestamp(ts, tz=timezone.utc)`.  For every 32-bit
MP4 atom value the argument stays inside 1904..2040, so the `OSError`/
`ValueError` branch that the source catches (and turns into the same skip as a
failed year filter) never fires. -/
def fromtimestampYear (ts : Int) : Int := (civilFromDays (ts.fdiv 86400)).1

/-- Python `int(s)` for a string of decimal digit character codes. -/
def intOfDigits (s : List Nat) : Nat := s.foldl (fun a c => a * 10 + (c - 48)) 0

/-- Epoch seconds of `_parse_ts(ts_str)` for a 14-digit `YYYYMMDDHHmmss`
string given as character codes (always interpreted as UTC). -/
def epochOfTs (ts : List Nat) : Int :=
  daysFromCivil (intOfDigits (ts.take 4)) (intOfDigits ((ts.drop 4).take 2))
      (intOfDigits ((ts.drop 6).take 2)) * 86400
    + intOfDigits ((ts.drop 8).take 2) * 3600
    + intOfDigits ((ts.drop 10).take 2) * 60
    + intOfDigits ((ts.drop 12).take 2)

/-- Model of `validate_timestamp`: `true` iff the function returns without
raising `ValueError`. -/
def validate_timestamp (ts : List Nat) : Bool :=
  decide (ts.length = 14) && ts.all (fun c => decide (48 ≤ c) && decide (c ≤ 57))
    && decide (2000 ≤ intOfDigits (ts.take 4)) && decide (intOfDigits (ts.take 4) ≤ 2099)
    && decide (1 ≤ intOfDigits ((ts.drop 4).take 2)) && decide (intOfDigits ((ts.drop 4).take 2) ≤ 12)
    && decide (1 ≤ intOfDigits ((ts.drop 6).take 2)) && decide (intOfDigits ((ts.drop 6).take 2) ≤ 31)
    && decide (intOfDigits ((ts.drop 8).take 2) ≤ 23)
    && decide (intOfDigits ((ts.drop 10).take 2) ≤ 59)
    && decide (intOfDigits ((ts.drop 12).take 2) ≤ 59)

/-!  The chunked pattern scanner `_find_pattern`. -/

/-- True iff `pattern` occurs in `data` starting at index `i` (the semantics of
a `bytes.find` hit at `i`). -/
def matchesAt (data pattern : List Nat) (i : Nat) : Bool :=
  decide ((data.drop i).take pattern.length = pattern)

/-- Python `search_data.find(pattern, pos)`: the least index `≥ pos` where
`pattern` occurs, as an `Option`. -/
def strFind (data pattern : List Nat) (pos : Nat) : Option Nat :=
  ((List.range (data.length + 1)).filter
      (fun i => decide (pos ≤ i) && matchesAt data pattern i)).head?

/-- The inner `while True: idx = search_data.find(pattern, pos)` loop of
`_find_pattern`, collecting hits and advancing the cursor by one byte after
each.  Fueled; `data.length + 1 - pos` iterations always suffice. -/
def findLoopAux (data pattern : List Nat) : Nat → Nat → List Nat
  | 0, _ => []
  | fuel + 1, pos =>
    match strFind data pattern pos with
    | none => []
    | some idx => idx :: findLoopAux data pattern fuel (idx + 1)

/-- All hits of `pattern` in `data` from position `pos`, in ascending order. -/
def findLoop (data pattern : List Nat) (pos : Nat) : List Nat :=
  findLoopAux data pattern (data.length + 1 - pos) pos

/-- The chunked read loop of `_find_pattern`: `rest` is the unread part of the
file, `file_pos` the number of bytes already read, `prev_tail` the carried
overlap.  Fueled; each iteration consumes `_CHUNK_SIZE ≥ 1` bytes of `rest`,
so `rest.length + 1` iterations always suffice. -/
def findChunksAux (pattern : List Nat) : Nat → List Nat → Nat → List Nat → List Nat
  | 0, _, _, _ => []
  | fuel + 1, rest, file_pos, prev_tail =>
    match rest with
    | [] => []
    | _ :: _ =>
      let chunk := rest.take _CHUNK_SIZE
      let search_data := prev_tail ++ chunk
      let search_base := file_pos - prev_tail.length
      let hits := (findLoop search_data pattern 0).map (fun idx => search_base + idx)
      let prev_tail' :=
        if pattern.length ≤ chunk.length then chunk.drop (chunk.length - pattern.length)
        else chunk
      hits ++ findChunksAux pattern fuel (rest.drop _CHUNK_SIZE) (file_pos + chunk.length) prev_tail'

/-- Model of `_find_pattern`: every file offset where `pattern` occurs, found
by scanning 64 MiB windows with a `len(pattern)`-byte overlap. -/
def _find_pattern (file pattern : List Nat) : List Nat :=
  findChunksAux pattern (file.length + 1) file 0 []

/-!  Patch candidates and the verified writer. -/

/-- One entry of the `patches` list built by `patch_file`; `ptype` is the
`"type"` string of the Python dict. -/
structure Patch where
  ptype : String
  offset : Nat
  old : List Nat
  new : List Nat
deriving DecidableEq, Repr

/-- Overwrite the bytes of `file` at `offset` with `new` (seek + write).  The
writer only calls this with `offset + new.length ≤ file.length`. -/
def writeAt (file : List Nat) (offset : Nat) (new : List Nat) : List Nat :=
  file.take offset ++ new ++ file.drop (offset + new.length)

/-- Model of `_patch_write`: re-read `len(old)` bytes at `offset`, compare,
and overwrite only on a byte-for-byte match.  Returns the success flag and the
resulting file bytes. -/
def _patch_write (file : List Nat) (offset : Nat) (old new : List Nat) : Bool × List Nat :=
  let existing := (file.drop offset).take old.length
  if existing = old then (true, writeAt file offset new) else (false, file)

/-- The write loop at the end of `patch_file`: every candidate is attempted in
order against the current file state, and the overall flag is the conjunction
of the per-candidate outcomes (`ok` starts `True` and is cleared, but the loop
continues, whenever one write fails). -/
def applyPatches (file : List Nat) : List Patch → Bool × List Nat
  | [] => (true, file)
  | p :: rest =>
    let r := _patch_write file p.offset p.old p.new
    let restRes := applyPatches r.2 rest
    (r.1 && restRes.1, restRes.2)

/-- Instrumentation of the write loop: the per-candidate success flags in
order of attempt (what the `ERROR` prints of `_patch_write` record). -/
def patchResults (file : List Nat) : List Patch → List Bool
  | [] => []
  | p :: rest =>
    let r := _patch_write file p.offset p.old p.new
    r.1 :: patchResults r.2 rest

/-!  The five candidate locators of `patch_file`. -/

/-- Python `struct.unpack_from(">I", buf, off)`; `struct.error` if fewer than
`off + 4` bytes are available. -/
def unpackFromBE32 (buf : List Nat) (off : Nat) : Except PyErr Nat :=
  if off + 4 ≤ buf.length then
    .ok (buf.getD off 0 * 16777216 + buf.getD (off + 1) 0 * 65536
      + buf.getD (off + 2) 0 * 256 + buf.getD (off + 3) 0)
  else .error .structError

/-- Python `struct.pack(">I", z)`; `struct.error` unless `0 ≤ z < 2^32`. -/
def packBE32 (z : Int) : Except PyErr (List Nat) :=
  if 0 ≤ z ∧ z < 4294967296 then
    .ok [z.toNat >>> 24 &&& 255, z.toNat >>> 16 &&& 255, z.toNat >>> 8 &&& 255, z.toNat &&& 255]
  else .error .structError

/-- Loop body of the MP4 atom locator for one hit of a box-type tag: read the
20 header bytes after the tag, keep version-0 atoms whose creation year is in
2000..2099, and emit one candidate for each of the creation and modification
fields, shifted by `delta_sec`.  `struct.pack` of an out-of-range shifted
value and `buf[0]` of an empty read model the uncaught exceptions. -/
def mp4AtomAt (file : List Nat) (delta_sec : Int) (boxName : String) (offset : Nat) :
    Except PyErr (List Patch) := do
  let buf := (file.drop (offset + 4)).take 20
  match buf with
  | [] => throw .indexError
  | version :: _ =>
    if version ≠ 0 then pure []
    else do
      let ct ← unpackFromBE32 buf 4
      let y := fromtimestampYear ((ct : Int) - (_MP4_EPOCH_OFFSET : Int))
      if 2000 ≤ y ∧ y ≤ 2099 then do
        let cval ← unpackFromBE32 buf 4
        let cold ← packBE32 (cval : Int)
        let cnew ← packBE32 ((cval : Int) + delta_sec)
        let mval ← unpackFromBE32 buf 8
        let mold ← packBE32 (mval : Int)
        let mnew ← packBE32 ((mval : Int) + delta_sec)
        pure [⟨boxName ++ ".creation", offset + 4 + 4, cold, cnew⟩,
              ⟨boxName ++ ".modification", offset + 4 + 8, mold, mnew⟩]
      else pure []

/-- Inner `for offset in _find_pattern(...)` loop of the MP4 atom locator. -/
def mp4OffsetsLoop (file : List Nat) (delta_sec : Int) (boxName : String) :
    List Nat → List Patch → Except PyErr (List Patch)
  | [], acc => .ok acc
  | o :: rest, acc =>
    match mp4AtomAt file delta_sec boxName o with
    | .error e => .error e
    | .ok ps => mp4OffsetsLoop file delta_sec boxName rest (acc ++ ps)

/-- The MP4 atom locator: scan for the `mvhd`, `tkhd` and `mdhd` tags in that
order. -/
def mp4AtomPatches (file : List Nat) (delta_sec : Int) : Except PyErr (List Patch) :=
  match mp4OffsetsLoop file delta_sec "mvhd" (_find_pattern file [109, 118, 104, 100]) [] with
  | .error e => .error e
  | .ok a =>
    match mp4OffsetsLoop file delta_sec "tkhd" (_find_pattern file [116, 107, 104, 100]) a with
    | .error e => .error e
    | .ok b => mp4OffsetsLoop file delta_sec "mdhd" (_find_pattern file [109, 100, 104, 100]) b

/-- The protobuf `creation_time` locator: the literal byte pattern
`0x38 ++ varint(wrong)` is searched, so a hit needs no further validation. -/
def protobufPatches (file wrong_varint correct_varint : List Nat) : List Patch :=
  (_find_pattern file (56 :: wrong_varint)).map
    (fun offset => ⟨"protobuf creation_time", offset + 1, wrong_varint, correct_varint⟩)

/-- Python `bytes(parts)` inside `_encode_varint` raises `ValueError` when the
value being encoded is negative (the single byte falls outside 0..255); this
wrapper models `_encode_varint` applied to a possibly negative `int`. -/
def encodeVarintChecked (z : Int) : Except PyErr (List Nat) :=
  if 0 ≤ z then .ok (_encode_varint z.toNat) else .error .valueError

/-- Loop body of the `first_gps_timestamp` locator for one hit of the tag
bytes `0xA0 0x02`: decode the following varint (decode errors are caught and
skip the hit), apply the 2020..2030 epoch-ms window and the 24-hour
plausibility bound, and emit a candidate only when the shifted value re-encodes
to the same length. -/
def gpsCandAt (file : List Nat) (wrong_epoch_ms delta_ms : Int) (offset : Nat) :
    Except PyErr (List Patch) :=
  let buf := (file.drop (offset + 2)).take 10
  match _decode_varint buf 0 with
  | none => .ok []
  | some (val, vend) =>
    if 1577836800000 ≤ val ∧ val ≤ 1893456000000 then
      if ((val : Int) - wrong_epoch_ms).natAbs < 86400000 then
        match encodeVarintChecked ((val : Int) + delta_ms) with
        | .error e => .error e
        | .ok new_v =>
          if (buf.take vend).length = new_v.length then
            .ok [⟨"first_gps_timestamp", offset + 2, buf.take vend, new_v⟩]
          else .ok []
      else .ok []
    else .ok []

/-- The `for offset in _find_pattern(filepath, b"\xa0\x02")` loop. -/
def gpsLoop (file : List Nat) (wrong_epoch_ms delta_ms : Int) :
    List Nat → List Patch → Except PyErr (List Patch)
  | [], acc => .ok acc
  | o :: rest, acc =>
    match gpsCandAt file wrong_epoch_ms delta_ms o with
    | .error e => .error e
    | .ok ps => gpsLoop file wrong_epoch_ms delta_ms rest (acc ++ ps)

/-- The `first_gps_timestamp` locator. -/
def gpsPatches (file : List Nat) (wrong_epoch_ms delta_ms : Int) : Except PyErr (List Patch) :=
  gpsLoop file wrong_epoch_ms delta_ms (_find_pattern file [160, 2]) []

/-- The ASCII filename-date locator: the literal `"<date>_<time>"` bytes of
the wrong timestamp, replaced wholesale. -/
def asciiPatches (file wrong_ascii correct_ascii : List Nat) : List Patch :=
  (_find_pattern file wrong_ascii).map
    (fun offset => ⟨"ASCII filename date", offset, wrong_ascii, correct_ascii⟩)

/-- UTF-16LE encoding of a list of ASCII character codes. -/
def utf16le (s : List Nat) : List Nat := (s.map (fun c => [c, 0])).flatten

/-- Loop body of the UTF-16LE locator for one hit of the wrong date: read 60
bytes of context starting 20 bytes before the hit (clamped at the start of the
file), require a `"VID"` or `"LRV"` UTF-16LE marker somewhere in that context,
then emit the date candidate and, when the wrong time's encoding sits exactly
18 bytes after the hit, a linked time candidate. -/
def utf16CandsAt (file wrong_date wrong_time correct_date correct_time : List Nat)
    (offset : Nat) : List Patch :=
  let ctx := (file.drop (offset - 20)).take 60
  if [86, 0, 73, 0, 68, 0] <:+: ctx ∨ [76, 0, 82, 0, 86, 0] <:+: ctx then
    let datePatch : Patch := ⟨"UTF-16LE filename date", offset, utf16le wrong_date, utf16le correct_date⟩
    let time_offset := offset + 18
    let wrong_time_u16 := utf16le wrong_time
    if (file.drop time_offset).take wrong_time_u16.length = wrong_time_u16 then
      [datePatch,
       ⟨"UTF-16LE filename time", time_offset, wrong_time_u16, utf16le correct_time⟩]
    else [datePatch]
  else []

/-- The UTF-16LE filename locator. -/
def utf16Patches (file wrong_date wrong_time correct_date correct_time : List Nat) : List Patch :=
  ((_find_pattern file (utf16le wrong_date)).map
    (utf16CandsAt file wrong_date wrong_time correct_date correct_time)).flatten

/-- The deduplication pass of `patch_file`: keep the first candidate for each
`(offset, type)` key. -/
def dedupPatches (seen : List (Nat × String)) : List Patch → List Patch
  | [] => []
  | p :: rest =>
    if (p.offset, p.ptype) ∈ seen then dedupPatches seen rest
    else p :: dedupPatches ((p.offset, p.ptype) :: seen) rest

/-- Result of one `patch_file` call: the returned boolean, the deduplicated
candidate list that the function reports, and the file bytes afterwards. -/
structure PFRes where
  success : Bool
  cands : List Patch
  file : List Nat
deriving DecidableEq, Repr

/-- Model of `patch_file`.  `Except.error` is an uncaught exception escaping
the call (the file is never written before candidate building finishes, so the
bytes on disk are unchanged in that case). -/
def patch_file (file : List Nat) (wrong_str correct_str : List Nat) (dry_run : Bool) :
    Except PyErr PFRes :=
  let wrong_ts := intOfDigits wrong_str
  let correct_ts := intOfDigits correct_str
  let wrong_date := wrong_str.take 8
  let correct_date := correct_str.take 8
  let wrong_time := wrong_str.drop 8
  let correct_time := correct_str.drop 8
  let delta_sec := epochOfTs correct_str - epochOfTs wrong_str
  let delta_ms := delta_sec * 1000
  match mp4AtomPatches file delta_sec with
  | .error e => .error e
  | .ok mp4 =>
    let wrong_varint := _encode_varint wrong_ts
    let correct_varint := _encode_varint correct_ts
    if wrong_varint.length ≠ correct_varint.length then
      .ok ⟨false, [], file⟩
    else
      let wrong_epoch_ms := epochOfTs wrong_str * 1000
      match gpsPatches file wrong_epoch_ms delta_ms with
      | .error e => .error e
      | .ok gps =>
        let patches := mp4 ++ protobufPatches file wrong_varint correct_varint ++ gps
          ++ asciiPatches file (wrong_date ++ [95] ++ wrong_time)
              (correct_date ++ [95] ++ correct_time)
          ++ utf16Patches file wrong_date wrong_time correct_date correct_time
        let unique := dedupPatches [] patches
        if unique = [] then .ok ⟨false, unique, file⟩
        else if dry_run then .ok ⟨true, unique, file⟩
        else
          let r := applyPatches file unique
          .ok ⟨r.1, unique, r.2⟩


deriving instance DecidableEq for Except

/-!  ### Varint codec: adequacy of the fueled encoder and the round trip -/

/-- The fuel argument of `encodeAux` is irrelevant as long as it is at least
the value being encoded. -/
theorem encodeAux_congr : ∀ f g v : Nat, v ≤ f → v ≤ g → encodeAux f v = encodeAux g v := by
  intro f
  induction f with
  | zero =>
    intro g v hf _
    interval_cases v
    cases g <;> simp [encodeAux]
  | succ f ih =>
    intro g v hf hg
    match g with
    | 0 =>
      interval_cases v
      simp [encodeAux]
    | g + 1 =>
      show (if v ≤ 0x7F then [v] else ((v &&& 0x7F) ||| 0x80) :: encodeAux f (v >>> 7))
        = (if v ≤ 0x7F then [v] else ((v &&& 0x7F) ||| 0x80) :: encodeAux g (v >>> 7))
      by_cases h : v ≤ 0x7F
      · simp [h]
      · have hlt : v >>> 7 < v := by
          rw [Nat.shiftRight_eq_div_pow]
          exact Nat.div_lt_self (by omega) (by norm_num)
        simp only [if_neg h]
        rw [ih g (v >>> 7) (by omega) (by omega)]

/-- Unfolding equation for `_encode_varint`, mirroring the source loop. -/
theorem _encode_varint_eq (v : Nat) :
    _encode_varint v =
      if v ≤ 0x7F then [v] else ((v &&& 0x7F) ||| 0x80) :: _encode_varint (v >>> 7) := by
  match v with
  | 0 => simp [_encode_varint, encodeAux]
  | v + 1 =>
    have hlt : (v + 1) >>> 7 < v + 1 := by
      rw [Nat.shiftRight_eq_div_pow]
      exact Nat.div_lt_self (by omega) (by norm_num)
    show (if v + 1 ≤ 0x7F then [v + 1]
        else ((v + 1 &&& 0x7F) ||| 0x80) :: encodeAux v ((v + 1) >>> 7)) = _
    by_cases h : v + 1 ≤ 0x7F
    · simp [h]
    · simp only [if_neg h]
      rw [show encodeAux v ((v + 1) >>> 7) = _encode_varint ((v + 1) >>> 7) from
        encodeAux_congr v ((v + 1) >>> 7) ((v + 1) >>> 7) (by omega) le_rfl]

theorem and_127_eq_mod (v : Nat) : v &&& 127 = v % 128 := by
  have h := Nat.and_pow_two_sub_one_eq_mod v 7
  norm_num at h
  exact h

theorem lor_shiftLeft_eq_add (res m shift : Nat) (h : res < 2 ^ shift) :
    res ||| (m <<< shift) = res + m * 2 ^ shift := by
  rw [Nat.shiftLeft_eq]
  calc res ||| m * 2 ^ shift = 2 ^ shift * m ||| res := by rw [Nat.or_comm, Nat.mul_comm]
    _ = 2 ^ shift * m + res := (Nat.mul_add_lt_is_or h m).symm
    _ = res + m * 2 ^ shift := by ring

theorem lor_128_eq_add (x : Nat) (h : x < 128) : x ||| 128 = x + 128 := by
  have hx : x < 2 ^ 7 := by omega
  calc x ||| 128 = 2 ^ 7 * 1 ||| x := by rw [Nat.or_comm]
    _ = 2 ^ 7 * 1 + x := (Nat.mul_add_lt_is_or hx 1).symm
    _ = x + 128 := by ring

theorem and_128_of_lt {b : Nat} (h : b < 128) : b &&& 128 = 0 := by
  apply Nat.eq_of_testBit_eq
  intro i
  simp only [Nat.testBit_and, Nat.zero_testBit]
  rcases eq_or_ne i 7 with rfl | hne
  · rw [Nat.testBit_lt_two_pow (by omega : b < 2 ^ 7)]
    simp
  · rw [show (128 : Nat) = 2 ^ 7 by norm_num, Nat.testBit_two_pow_of_ne (Ne.symm hne)]
    simp

theorem and_128_add_ne_zero (x : Nat) (h : x < 128) : (x + 128) &&& 128 ≠ 0 := by
  intro h0
  have h1 : ((x + 128) &&& 128).testBit 7 = true := by
    simp only [Nat.testBit_and]
    rw [show x + 128 = 2 ^ 7 + x by ring, Nat.testBit_two_pow_add_eq,
      Nat.testBit_lt_two_pow (by omega : x < 2 ^ 7),
      show (128 : Nat) = 2 ^ 7 by norm_num, Nat.testBit_two_pow_self]
    rfl
  rw [h0] at h1
  simp at h1

/-- Decoding an encoded value with accumulator `res` and shift `shift` adds
`v * 2 ^ shift` and consumes the whole encoding. -/
theorem decodeGo_encode :
    ∀ v pos res shift : Nat, res < 2 ^ shift →
      decodeGo (_encode_varint v) pos res shift
        = some (res + v * 2 ^ shift, pos + (_encode_varint v).length) := by
  intro v
  induction v using Nat.strong_induction_on with
  | _ v ih =>
    intro pos res shift hres
    rw [_encode_varint_eq]
    by_cases h : v ≤ 0x7F
    · simp only [if_pos h]
      show (if v &&& 0x80 = 0 then some (res ||| ((v &&& 0x7F) <<< shift), pos + 1)
        else decodeGo [] (pos + 1) (res ||| ((v &&& 0x7F) <<< shift)) (shift + 7)) = _
      rw [if_pos (and_128_of_lt (by omega))]
      rw [show v &&& 0x7F = v from by rw [and_127_eq_mod]; exact Nat.mod_eq_of_lt (by omega),
        lor_shiftLeft_eq_add res v shift hres]
      rfl
    · simp only [if_neg h]
      show (if ((v &&& 0x7F) ||| 0x80) &&& 0x80 = 0
          then some (res ||| ((((v &&& 0x7F) ||| 0x80) &&& 0x7F) <<< shift), pos + 1)
          else decodeGo (_encode_varint (v >>> 7)) (pos + 1)
            (res ||| ((((v &&& 0x7F) ||| 0x80) &&& 0x7F) <<< shift)) (shift + 7)) = _
      have hb : (v &&& 0x7F) ||| 0x80 = v % 128 + 128 := by
        rw [and_127_eq_mod]
        exact lor_128_eq_add _ (Nat.mod_lt _ (by norm_num))
      rw [hb, if_neg (and_128_add_ne_zero _ (Nat.mod_lt _ (by norm_num)))]
      have hb2 : (v % 128 + 128) &&& 0x7F = v % 128 := by
        rw [and_127_eq_mod, Nat.add_mod_right]
        exact Nat.mod_eq_of_lt (Nat.mod_lt _ (by norm_num))
      rw [hb2, lor_shiftLeft_eq_add res (v % 128) shift hres]
      have hlt : v >>> 7 < v := by
        rw [Nat.shiftRight_eq_div_pow]
        exact Nat.div_lt_self (by omega) (by norm_num)
      have hpos : 0 < 2 ^ shift := Nat.pos_pow_of_pos shift (by norm_num)
      have hres' : res + v % 128 * 2 ^ shift < 2 ^ (shift + 7) := by
        have hm : v % 128 < 128 := Nat.mod_lt _ (by norm_num)
        have hp : (2 : Nat) ^ (shift + 7) = 2 ^ shift * 128 := by
          rw [pow_add]; norm_num
        rw [hp]
        nlinarith [hres, hm, hpos]
      rw [ih (v >>> 7) hlt (pos + 1) _ (shift + 7) hres']
      have e1 : res + v % 128 * 2 ^ shift + v >>> 7 * 2 ^ (shift + 7) = res + v * 2 ^ shift := by
        rw [Nat.shiftRight_eq_div_pow, pow_add, show ((2 : Nat) ^ 7 = 128) from by norm_num]
        calc res + v % 128 * 2 ^ shift + v / 128 * (2 ^ shift * 128)
            = res + (v % 128 + 128 * (v / 128)) * 2 ^ shift := by ring
          _ = res + v * 2 ^ shift := by rw [Nat.mod_add_div]
      rw [e1]
      simp only [List.length_cons]
      ring_nf

/-- C8: for every non-negative integer value (in particular the integer value
of every valid 14-digit timestamp string), `_decode_varint` applied at
position 0 to `_encode_varint value` returns exactly that value together with
the number of encoded bytes consumed. -/
theorem varint_round_trip (v : Nat) :
    _decode_varint (_encode_varint v) 0 = some (v, (_encode_varint v).length) := by
  show decodeGo ((_encode_varint v).drop 0) 0 0 0 = _
  rw [List.drop_zero]
  have h := decodeGo_encode v 0 0 0 (by norm_num)
  simpa using h

/-!  ### Varint encoding length for validated timestamps (claim C10) -/

/-- Values in `[2^(7k), 2^(7(k+1)))` encode to exactly `k + 1` varint bytes. -/
theorem encode_length_eq :
    ∀ k v : Nat, 2 ^ (7 * k) ≤ v → v < 2 ^ (7 * (k + 1)) → (_encode_varint v).length = k + 1 := by
  intro k
  induction k with
  | zero =>
    intro v h1 h2
    rw [_encode_varint_eq, if_pos (by omega)]
    rfl
  | succ k ih =>
    intro v h1 h2
    have h128 : (128 : Nat) ≤ v := by
      have : (2 : Nat) ^ 7 ≤ 2 ^ (7 * (k + 1)) := Nat.pow_le_pow_right (by norm_num) (by omega)
      omega
    rw [_encode_varint_eq, if_neg (by omega), List.length_cons]
    have hs : v >>> 7 = v / 128 := by
      rw [Nat.shiftRight_eq_div_pow]
    have e1 : (2 : Nat) ^ (7 * (k + 1)) = 2 ^ (7 * k) * 128 := by
      rw [show 7 * (k + 1) = 7 * k + 7 by ring, pow_add]
      norm_num
    have e2 : (2 : Nat) ^ (7 * (k + 1 + 1)) = 2 ^ (7 * (k + 1)) * 128 := by
      rw [show 7 * (k + 1 + 1) = 7 * (k + 1) + 7 by ring, pow_add]
      norm_num
    have hlow : 2 ^ (7 * k) ≤ v >>> 7 := by
      rw [hs]
      exact (Nat.le_div_iff_mul_le (by norm_num)).mpr (by omega)
    have hhigh : v >>> 7 < 2 ^ (7 * (k + 1)) := by
      rw [hs]
      exact (Nat.div_lt_iff_lt_mul (by norm_num)).mpr (by omega)
    rw [ih (v >>> 7) hlow hhigh]

/-- Splitting a digit string splits its integer value positionally. -/
theorem intOfDigits_append (a b : List Nat) :
    intOfDigits (a ++ b) = intOfDigits a * 10 ^ b.length + intOfDigits b := by
  have key : ∀ (l : List Nat) (i : Nat),
      l.foldl (fun a c => a * 10 + (c - 48)) i
        = i * 10 ^ l.length + l.foldl (fun a c => a * 10 + (c - 48)) 0 := by
    intro l
    induction l with
    | nil => intro i; simp
    | cons c t ih =>
      intro i
      simp only [List.foldl_cons, List.length_cons]
      rw [ih (i * 10 + (c - 48)), ih (0 * 10 + (c - 48))]
      ring
  show (a ++ b).foldl _ 0 = _
  rw [List.foldl_append, key b (a.foldl (fun a c => a * 10 + (c - 48)) 0)]
  rfl

/-- A string of decimal digit characters has value below `10 ^ length`. -/
theorem intOfDigits_lt (l : List Nat) (hd : ∀ c ∈ l, c ≤ 57) :
    intOfDigits l < 10 ^ l.length := by
  induction l with
  | nil => simp [intOfDigits]
  | cons c t ih =>
    have h : intOfDigits (c :: t) = (c - 48) * 10 ^ t.length + intOfDigits t := by
      have := intOfDigits_append [c] t
      simpa [intOfDigits] using this
    rw [h, List.length_cons, pow_succ]
    have hc : c - 48 ≤ 9 := by
      have := hd c (List.mem_cons_self c t)
      omega
    have ht := ih (fun x hx => hd x (List.mem_cons_of_mem c hx))
    nlinarith [ht, Nat.pos_pow_of_pos t.length (show 0 < 10 by norm_num)]

/-- Integer value bounds implied by `validate_timestamp`: every validated
14-digit timestamp lies in `[2^44, 2^45)`. -/
theorem valid_intOfDigits_bounds (ts : List Nat) (h : validate_timestamp ts = true) :
    2 ^ 44 ≤ intOfDigits ts ∧ intOfDigits ts < 2 ^ 45 := by
  unfold validate_timestamp at h
  simp only [Bool.and_eq_true, decide_eq_true_eq, List.all_eq_true] at h
  obtain ⟨⟨⟨⟨⟨⟨⟨⟨⟨⟨hlen, hall⟩, hy1⟩, hy2⟩, -⟩, -⟩, -⟩, -⟩, -⟩, -⟩, -⟩ := h
  have hsplit := intOfDigits_append (ts.take 4) (ts.drop 4)
  rw [List.take_append_drop] at hsplit
  have hdl : (ts.drop 4).length = 10 := by rw [List.length_drop, hlen]
  have hr : intOfDigits (ts.drop 4) < 10 ^ 10 := by
    have := intOfDigits_lt (ts.drop 4)
      (fun c hc => ((hall c ((List.drop_sublist 4 ts).subset hc)).2))
    rwa [hdl] at this
  rw [hdl] at hsplit
  have h10 : (10 : Nat) ^ 10 = 10000000000 := by norm_num
  have h44 : (2 : Nat) ^ 44 = 17592186044416 := by norm_num
  have h45 : (2 : Nat) ^ 45 = 35184372088832 := by norm_num
  rw [h10] at hsplit hr
  omega

/-- C10: the integer values of any two timestamp strings accepted by
`validate_timestamp` encode to protobuf varints of exactly 7 bytes each, so
the varint length-mismatch failure branch in `patch_file` cannot trigger for
validated inputs. -/
theorem validated_varint_length_seven (w c : List Nat)
    (hw : validate_timestamp w = true) (hc : validate_timestamp c = true) :
    (_encode_varint (intOfDigits w)).length = 7 ∧
      (_encode_varint (intOfDigits c)).length = 7 ∧
      (_encode_varint (intOfDigits w)).length = (_encode_varint (intOfDigits c)).length := by
  have key : ∀ ts : List Nat, validate_timestamp ts = true →
      (_encode_varint (intOfDigits ts)).length = 7 := by
    intro ts hts
    obtain ⟨h1, h2⟩ := valid_intOfDigits_bounds ts hts
    have e1 : (2 : Nat) ^ (7 * 6) ≤ intOfDigits ts := le_trans (by norm_num) h1
    have e2 : intOfDigits ts < 2 ^ (7 * (6 + 1)) := lt_of_lt_of_le h2 (by norm_num)
    exact encode_length_eq 6 (intOfDigits ts) e1 e2
  exact ⟨key w hw, key c hc, by rw [key w hw, key c hc]⟩

/-- The wrong timestamp `"20260103194656"` of the worked examples, as
character codes. -/
def wrongTs : List Nat := [50, 48, 50, 54, 48, 49, 48, 51, 49, 57, 52, 54, 53, 54]

/-- The correct timestamp `"20260215143800"` of the worked examples, as
character codes. -/
def correctTs : List Nat := [50, 48, 50, 54, 48, 50, 49, 53, 49, 52, 51, 56, 48, 48]

/-- Witness for C10 at the concrete example pair. -/
theorem validated_varint_length_seven_witness :
    (validate_timestamp wrongTs = true ∧ validate_timestamp correctTs = true) ∧
      (_encode_varint (intOfDigits wrongTs)).length
        = (_encode_varint (intOfDigits correctTs)).length :=
  ⟨⟨by decide, by decide⟩,
    (validated_varint_length_seven wrongTs correctTs (by decide) (by decide)).2.2⟩

/-!  ### Varint length mismatch aborts the file's patch set (claim C4) -/

/-- C4: when the wrong and correct timestamps encode to varints of different
byte lengths, `patch_file` never writes: every normally-returned result is the
failure result carrying the unchanged file and an empty candidate report, and
the only other possibility is an exception raised by the earlier MP4 stage
(which also precedes every write). -/
theorem varint_mismatch_aborts (file w c : List Nat) (dry : Bool)
    (h : (_encode_varint (intOfDigits w)).length ≠ (_encode_varint (intOfDigits c)).length) :
    (∀ r, patch_file file w c dry = .ok r →
        r.success = false ∧ r.cands = [] ∧ r.file = file) ∧
      (patch_file file w c dry = .ok ⟨false, [], file⟩ ∨
        ∃ e, patch_file file w c dry = .error e) := by
  have hmain : patch_file file w c dry = .ok ⟨false, [], file⟩ ∨
      ∃ e, patch_file file w c dry = .error e := by
    cases hm : mp4AtomPatches file (epochOfTs c - epochOfTs w) with
    | error e =>
      exact Or.inr ⟨e, by simp only [patch_file, hm]⟩
    | ok mp4 =>
      refine Or.inl ?_
      simp only [patch_file, hm]
      rw [if_pos h]
  refine ⟨fun r hr => ?_, hmain⟩
  rcases hmain with hpf | ⟨e, hpf⟩
  · rw [hpf] at hr
    cases hr
    exact ⟨rfl, rfl, rfl⟩
  · rw [hpf] at hr
    exact absurd hr (by simp)

/-- Witness for C4: a mismatching pair (an all-zero "timestamp" encodes to one
byte, the example timestamp to seven), applied to the empty file. -/
theorem varint_mismatch_aborts_witness :
    ((_encode_varint (intOfDigits [48, 48, 48, 48, 48, 48, 48, 48, 48, 48, 48, 48, 48, 48])).length
        ≠ (_encode_varint (intOfDigits correctTs)).length) ∧
      (patch_file [] [48, 48, 48, 48, 48, 48, 48, 48, 48, 48, 48, 48, 48, 48] correctTs false
          = .ok ⟨false, [], []⟩ ∨
        ∃ e, patch_file [] [48, 48, 48, 48, 48, 48, 48, 48, 48, 48, 48, 48, 48, 48] correctTs false
          = .error e) :=
  ⟨by decide,
    (varint_mismatch_aborts [] [48, 48, 48, 48, 48, 48, 48, 48, 48, 48, 48, 48, 48, 48]
      correctTs false (by decide)).2⟩

/-!  ### Empty candidate set (claim C5) -/

/-- Amended C5: an empty deduplicated candidate set leaves the file untouched,
but the outcome `patch_file` hands its caller is `False`, the same value a
failed patch run returns (so `main` prints `FAILED`, not a distinct no-op). -/
theorem empty_candidates_leave_file_untouched (file w c : List Nat) (dry : Bool) (r : PFRes)
    (h : patch_file file w c dry = .ok r) (hc : r.cands = []) :
    r.success = false ∧ r.file = file := by
  simp only [patch_file] at h
  split at h
  · exact absurd h (by simp)
  · split at h
    · cases h
      exact ⟨rfl, rfl⟩
    · split at h
      · exact absurd h (by simp)
      · split at h
        · cases h
          exact ⟨rfl, rfl⟩
        · rename_i hne
          split at h
          · cases h
            exact absurd hc hne
          · cases h
            exact absurd hc hne

/-- Witness for the amended C5 at the empty file. -/
theorem empty_candidates_leave_file_untouched_witness :
    (patch_file [] wrongTs correctTs false = .ok ⟨false, [], []⟩ ∧
        PFRes.cands ⟨false, [], []⟩ = []) ∧
      (PFRes.success ⟨false, [], []⟩ = false ∧ PFRes.file ⟨false, [], []⟩ = []) :=
  ⟨⟨by decide, rfl⟩,
    empty_candidates_leave_file_untouched [] wrongTs correctTs false ⟨false, [], []⟩
      (by decide) rfl⟩

/-- A file whose MP4 `mvhd` modification field overlaps an ASCII date hit: the
modification write invalidates the ASCII candidate's expected bytes, so its
verification fails and the run is a genuine failure returning `False`. -/
def partialFailFile : List Nat :=
  [109, 118, 104, 100, 0, 0, 0, 0, 229, 127, 34, 176,
   50, 48, 50, 54, 48, 49, 48, 51, 95, 49, 57, 52, 54, 53, 54]

/-- Counterexample to C5 as stated: with an empty candidate set `patch_file`
returns `False` — exactly the value a genuinely failing run returns (second
conjunct) — so the caller (`main`, which prints `FAILED` on a falsy result)
cannot distinguish the no-op from a failure. -/
theorem noop_outcome_equals_failure_outcome :
    patch_file [] wrongTs correctTs false = .ok ⟨false, [], []⟩ ∧
      Except.map PFRes.success (patch_file partialFailFile wrongTs correctTs false)
        = .ok false :=
  ⟨by decide, by decide⟩

/-!  ### The verified patch writer (claim C3) -/

/-- The write loop succeeds exactly when every recorded per-candidate result
is a success. -/
theorem applyPatches_fst (f : List Nat) (ps : List Patch) :
    (applyPatches f ps).1 = (patchResults f ps).all (fun b => b) := by
  induction ps generalizing f with
  | nil => simp [applyPatches, patchResults]
  | cons p t ih =>
    simp only [applyPatches, patchResults, List.all_cons]
    rw [ih]

/-- Every candidate is attempted: the trace has one entry per candidate. -/
theorem patchResults_length (f : List Nat) (ps : List Patch) :
    (patchResults f ps).length = ps.length := by
  induction ps generalizing f with
  | nil => simp [patchResults]
  | cons p t ih =>
    simp only [patchResults, List.length_cons]
    rw [ih]

/-- C3: the writer re-reads exactly `len(old)` bytes at the candidate offset
and overwrites only on a byte-for-byte match; a mismatch fails that single
candidate and leaves the file unchanged by that step; every candidate in the
list is attempted (one trace entry each); the write loop — and hence the
non-dry `patch_file` run that reaches it — reports success exactly when every
per-candidate verification and write succeeded. -/
theorem verified_writer_spec (file : List Nat) (ps : List Patch) (offset : Nat)
    (old new : List Nat) :
    ((_patch_write file offset old new).1 = true ↔ (file.drop offset).take old.length = old) ∧
      ((file.drop offset).take old.length ≠ old → _patch_write file offset old new = (false, file)) ∧
      (patchResults file ps).length = ps.length ∧
      ((applyPatches file ps).1 = true ↔ ∀ b ∈ patchResults file ps, b = true) ∧
      (∀ w c r, patch_file file w c false = .ok r → r.cands ≠ [] →
        (r.success = true ↔ ∀ b ∈ patchResults file r.cands, b = true)) := by
  refine ⟨?_, ?_, patchResults_length file ps, ?_, ?_⟩
  · simp only [_patch_write]
    split
    · simp_all
    · simp_all
  · intro hne
    simp only [_patch_write]
    rw [if_neg hne]
  · rw [applyPatches_fst]
    simp [List.all_eq_true]
  · intro w c r h hc
    simp only [patch_file] at h
    split at h
    · exact absurd h (by simp)
    · split at h
      · cases h
        exact absurd rfl hc
      · split at h
        · exact absurd h (by simp)
        · split at h
          · rename_i hu
            cases h
            exact absurd hu hc
          · split at h
            · rename_i hfalse
              exact absurd hfalse (by simp)
            · cases h
              show (applyPatches file _).1 = true ↔ _
              rw [applyPatches_fst]
              simp [List.all_eq_true]

/-- Witness for C3: a concrete mismatch — the byte at offset 1 of `[1, 2, 3]`
is not `9` — fails that candidate and returns the file unchanged. -/
theorem verified_writer_spec_witness :
    (([1, 2, 3] : List Nat).drop 1).take 1 ≠ [9] ∧
      _patch_write [1, 2, 3] 1 [9] [5] = (false, [1, 2, 3]) :=
  ⟨by decide, (verified_writer_spec [1, 2, 3] [] 1 [9] [5]).2.1 (by decide)⟩

/-!  ### GPS plausibility filter (claim C6) -/

/-- The plausibility facts every emitted `first_gps_timestamp` candidate
satisfies: the varint decoded right after the tag lies in the 2020..2030
epoch-ms window and within 24 hours of the wrong timestamp's epoch-ms. -/
def gpsPlausible (file : List Nat) (wms : Int) (p : Patch) : Prop :=
  ∃ val vend, _decode_varint ((file.drop p.offset).take 10) 0 = some (val, vend) ∧
    1577836800000 ≤ val ∧ val ≤ 1893456000000 ∧ ((val : Int) - wms).natAbs < 86400000

theorem gpsCandAt_sound (file : List Nat) (wms dms : Int) (o : Nat) (l : List Patch)
    (h : gpsCandAt file wms dms o = .ok l) : ∀ p ∈ l, gpsPlausible file wms p := by
  intro p hp
  simp only [gpsCandAt] at h
  split at h
  · cases h
    simp at hp
  · rename_i val vend hdec
    split at h
    · rename_i hwin
      split at h
      · rename_i h24
        split at h
        · exact absurd h (by simp)
        · split at h
          · cases h
            simp at hp
            subst hp
            exact ⟨val, vend, hdec, hwin.1, hwin.2, h24⟩
          · cases h
            simp at hp
      · cases h
        simp at hp
    · cases h
      simp at hp

theorem gpsLoop_sound (file : List Nat) (wms dms : Int) :
    ∀ (offs : List Nat) (acc ps : List Patch),
      (∀ p ∈ acc, gpsPlausible file wms p) →
      gpsLoop file wms dms offs acc = .ok ps → ∀ p ∈ ps, gpsPlausible file wms p := by
  intro offs
  induction offs with
  | nil =>
    intro acc ps hacc h
    cases h
    exact hacc
  | cons o rest ih =>
    intro acc ps hacc h
    simp only [gpsLoop] at h
    split at h
    · exact absurd h (by simp)
    · rename_i l hl
      refine ih (acc ++ l) ps ?_ h
      intro p hp
      rcases List.mem_append.mp hp with hp | hp
      · exact hacc p hp
      · exact gpsCandAt_sound file wms dms o l hl p hp

/-- C6: a `first_gps_timestamp` candidate is emitted for a `0xA0 0x02` hit
only if the varint decoded after the tag lies in `[1577836800000,
1893456000000]` epoch-ms and differs from the wrong timestamp's epoch-ms by
less than 24 hours; conversely a hit whose decoded value violates either bound
is never turned into a candidate. -/
theorem gps_candidate_plausibility (file : List Nat) (wms dms : Int) :
    (∀ ps, gpsPatches file wms dms = .ok ps → ∀ p ∈ ps, gpsPlausible file wms p) ∧
      (∀ o val vend,
        _decode_varint ((file.drop (o + 2)).take 10) 0 = some (val, vend) →
        (¬(1577836800000 ≤ val ∧ val ≤ 1893456000000) ∨
          86400000 ≤ ((val : Int) - wms).natAbs) →
        gpsCandAt file wms dms o = .ok []) := by
  constructor
  · intro ps h
    exact gpsLoop_sound file wms dms (_find_pattern file [160, 2]) [] ps (by simp) h
  · intro o val vend hdec hbad
    simp only [gpsCandAt, hdec]
    rcases hbad with hbad | hbad
    · rw [if_neg hbad]
    · by_cases hwin : 1577836800000 ≤ val ∧ val ≤ 1893456000000
      · rw [if_pos hwin, if_neg (by omega)]
      · rw [if_neg hwin]

/-- The demonstration GPS file: the tag bytes followed by the varint of the
wrong timestamp's epoch-ms value. -/
def gpsDemoFile : List Nat := [160, 2, 128, 151, 152, 171, 184, 51]

/-- The candidate the GPS locator emits on `gpsDemoFile`. -/
def gpsDemoPatch : Patch :=
  ⟨"first_gps_timestamp", 2, [128, 151, 152, 171, 184, 51], [192, 210, 242, 141, 198, 51]⟩

/-- Witness for C6: the demonstration file produces exactly one GPS candidate
and it satisfies the plausibility bounds. -/
theorem gps_candidate_plausibility_witness :
    (gpsPatches gpsDemoFile 1767469616000 3696664000 = .ok [gpsDemoPatch] ∧
        gpsDemoPatch ∈ [gpsDemoPatch]) ∧
      gpsPlausible gpsDemoFile 1767469616000 gpsDemoPatch :=
  ⟨⟨by decide, by decide⟩,
    (gps_candidate_plausibility gpsDemoFile 1767469616000 3696664000).1
      [gpsDemoPatch] (by decide) gpsDemoPatch (by decide)⟩

/-!  ### UTF-16LE marker proximity guard (claim C7) -/

/-- The wrong date fragment `"20260103"` as character codes. -/
def wrongDate : List Nat := [50, 48, 50, 54, 48, 49, 48, 51]

/-- The wrong time fragment `"194656"` as character codes. -/
def wrongTime : List Nat := [49, 57, 52, 54, 53, 54]

/-- The correct date fragment `"20260215"` as character codes. -/
def correctDate : List Nat := [50, 48, 50, 54, 48, 50, 49, 53]

/-- The correct time fragment `"143800"` as character codes. -/
def correctTime : List Nat := [49, 52, 51, 56, 48, 48]

/-- A file consisting of the UTF-16LE wrong date immediately followed by the
UTF-16LE marker `"VID"`: the marker starts 16 bytes after the hit, outside the
region the claim allows (20 bytes before plus the 16-byte hit itself). -/
def utf16DemoFile : List Nat := utf16le wrongDate ++ [86, 0, 73, 0, 68, 0]

/-- Counterexample to C7 as stated: on `utf16DemoFile` the only marker lies
strictly after the hit — it is not an infix of the 36-byte region the claim
describes (for a hit at offset 0 that region is the hit's 16 bytes) — yet the
locator still emits the date candidate, because the source checks a 60-byte
context that extends 24 bytes beyond the hit. -/
theorem utf16_candidate_with_marker_after_hit :
    utf16Patches utf16DemoFile wrongDate wrongTime correctDate correctTime
        = [⟨"UTF-16LE filename date", 0, utf16le wrongDate, utf16le correctDate⟩] ∧
      ¬([86, 0, 73, 0, 68, 0] <:+: utf16DemoFile.take 16) ∧
      ¬([76, 0, 82, 0, 86, 0] <:+: utf16DemoFile.take 16) ∧
      _find_pattern utf16DemoFile (utf16le wrongDate) = [0] :=
  ⟨by decide, by decide, by decide, by decide⟩

/-- Amended C7: for a hit of the wrong date's UTF-16LE encoding, a candidate
is emitted if and only if the UTF-16LE marker `"VID"` or `"LRV"` occurs in the
60 bytes of context read starting 20 bytes before the hit (clamped at the file
start) — a window that also covers up to 24 bytes after the 16-byte hit. -/
theorem utf16_marker_window (file wd wt cd ct : List Nat) (offset : Nat) :
    (utf16CandsAt file wd wt cd ct offset ≠ [] ↔
      ([86, 0, 73, 0, 68, 0] <:+: (file.drop (offset - 20)).take 60 ∨
        [76, 0, 82, 0, 86, 0] <:+: (file.drop (offset - 20)).take 60)) ∧
      (∀ p ∈ utf16CandsAt file wd wt cd ct offset,
        ([86, 0, 73, 0, 68, 0] <:+: (file.drop (offset - 20)).take 60 ∨
          [76, 0, 82, 0, 86, 0] <:+: (file.drop (offset - 20)).take 60)) := by
  constructor
  · simp only [utf16CandsAt]
    split
    · rename_i hmark
      constructor
      · intro _
        exact hmark
      · intro _
        split <;> simp
    · rename_i hmark
      constructor
      · intro hne
        exact absurd rfl hne
      · intro hor
        exact absurd hor hmark
  · intro p hp
    simp only [utf16CandsAt] at hp
    split at hp
    · rename_i hmark
      exact hmark
    · simp at hp

/-- Witness for the amended C7: the date candidate emitted on `utf16DemoFile`
comes with a marker inside the 60-byte context. -/
theorem utf16_marker_window_witness :
    (⟨"UTF-16LE filename date", 0, utf16le wrongDate, utf16le correctDate⟩ : Patch)
        ∈ utf16CandsAt utf16DemoFile wrongDate wrongTime correctDate correctTime 0 ∧
      ([86, 0, 73, 0, 68, 0] <:+: (utf16DemoFile.drop (0 - 20)).take 60 ∨
        [76, 0, 82, 0, 86, 0] <:+: (utf16DemoFile.drop (0 - 20)).take 60) :=
  ⟨by decide,
    (utf16_marker_window utf16DemoFile wrongDate wrongTime correctDate correctTime 0).2
      ⟨"UTF-16LE filename date", 0, utf16le wrongDate, utf16le correctDate⟩ (by decide)⟩

/-!  ### MP4 field overflow raises an uncaught struct.error (claim C9) -/

/-- A minimal file with one `mvhd` atom: version 0, creation field
`3850314416` (year 2026, so the atom passes the year filter) and modification
field `0xFFFFFFFF`, which overflows 32 bits once the positive delta is
added. -/
def mp4OverflowFile : List Nat :=
  [109, 118, 104, 100, 0, 0, 0, 0, 229, 127, 34, 176, 255, 255, 255, 255]

/-- C9: `struct.pack(">I", v)` fails exactly when the value leaves
`[0, 2^32 - 1]`, and on a matched atom whose creation field passes the year
filter but whose (never plausibility-checked) modification field overflows
after adding `delta_sec`, the whole `patch_file` run aborts with the uncaught
`struct.error` instead of skipping that one candidate. -/
theorem mp4_overflow_aborts_run :
    (∀ z : Int, packBE32 z = .error .structError ↔ (z < 0 ∨ 4294967296 ≤ z)) ∧
      patch_file mp4OverflowFile wrongTs correctTs false = .error .structError ∧
      fromtimestampYear ((3850314416 : Int) - (_MP4_EPOCH_OFFSET : Int)) = 2026 := by
  refine ⟨?_, by decide, by decide⟩
  intro z
  by_cases hz : 0 ≤ z ∧ z < 4294967296
  · simp only [packBE32]
    rw [if_pos hz]
    constructor
    · intro h
      exact absurd h (by simp)
    · intro h
      omega
  · simp only [packBE32]
    rw [if_neg hz]
    constructor
    · intro _
      omega
    · intro _
      rfl

/-!  ### Idempotence of the engine (claim C1) -/

/-- A file holding a single `mvhd` atom stamped with the wrong time. -/
def mvhdOnlyFile : List Nat :=
  [109, 118, 104, 100, 0, 0, 0, 0, 229, 127, 34, 176, 229, 127, 34, 176]

/-- `mvhdOnlyFile` after a successful first run. -/
def mvhdOnlyFileAfter : List Nat :=
  [109, 118, 104, 100, 0, 0, 0, 0, 229, 183, 138, 200, 229, 183, 138, 200]

/-- Counterexample to C1: after a successful first run, a second run of
`patch_file` with the same wrong/correct pair emits the two MP4-atom
candidates again (the atom locator filters by plausible year, not by the
wrong value), reports success, and shifts the fields a second time — not the
claimed zero candidates and no-op. -/
theorem second_run_emits_mp4_candidates_again :
    patch_file mvhdOnlyFile wrongTs correctTs false
        = .ok ⟨true,
            [⟨"mvhd.creation", 8, [229, 127, 34, 176], [229, 183, 138, 200]⟩,
             ⟨"mvhd.modification", 12, [229, 127, 34, 176], [229, 183, 138, 200]⟩],
            mvhdOnlyFileAfter⟩ ∧
      patch_file mvhdOnlyFileAfter wrongTs correctTs false
        = .ok ⟨true,
            [⟨"mvhd.creation", 8, [229, 183, 138, 200], [229, 239, 242, 224]⟩,
             ⟨"mvhd.modification", 12, [229, 183, 138, 200], [229, 239, 242, 224]⟩],
            [109, 118, 104, 100, 0, 0, 0, 0, 229, 239, 242, 224, 229, 239, 242, 224]⟩ :=
  ⟨by decide, by decide⟩

/-- A file containing one instance of each of the five encodings of the wrong
timestamp: an `mvhd` atom, the protobuf `creation_time` (tag `0x38` plus
varint), the GPS tag plus epoch-ms varint, the ASCII `date_time` string, and a
`VID`-marked UTF-16LE date and time. -/
def demoFile : List Nat :=
  [109, 118, 104, 100, 0, 0, 0, 0, 229, 127, 34, 176, 229, 127, 34, 176]
    ++ [0]
    ++ [56, 160, 144, 132, 226, 210, 205, 4]
    ++ [0]
    ++ [160, 2, 128, 151, 152, 171, 184, 51]
    ++ [0]
    ++ [50, 48, 50, 54, 48, 49, 48, 51, 95, 49, 57, 52, 54, 53, 54]
    ++ [0]
    ++ [86, 0, 73, 0, 68, 0, 95, 0]
    ++ [50, 0, 48, 0, 50, 0, 54, 0, 48, 0, 49, 0, 48, 0, 51, 0]
    ++ [95, 0]
    ++ [49, 0, 57, 0, 52, 0, 54, 0, 53, 0, 54, 0]

/-- `demoFile` after a successful first run: every encoding now carries the
correct timestamp. -/
def demoFileAfter : List Nat :=
  [109, 118, 104, 100, 0, 0, 0, 0, 229, 183, 138, 200, 229, 183, 138, 200, 0, 56, 248, 250,
   180, 151, 211, 205, 4, 0, 160, 2, 192, 210, 242, 141, 198, 51, 0, 50, 48, 50, 54, 48,
   50, 49, 53, 95, 49, 52, 51, 56, 48, 48, 0, 86, 0, 73, 0, 68, 0, 95, 0, 50, 0, 48, 0,
   50, 0, 54, 0, 48, 0, 50, 0, 49, 0, 53, 0, 95, 0, 49, 0, 52, 0, 51, 0, 56, 0, 48, 0,
   48, 0]

/-- Amended C1: on a file carrying all five encodings, the first run emits one
candidate per encoding and succeeds; the second run with the same pair emits
no protobuf, ASCII, UTF-16 or GPS candidate (their search patterns embed the
wrong value, which no longer exists — the GPS hit is additionally rejected by
the 24-hour bound), but it emits the two MP4-atom candidates again and
re-patches them, returning success rather than reporting a no-op.  Idempotence
therefore holds for the pattern-anchored locators only, not for the engine. -/
theorem second_run_keeps_only_mp4_candidates :
    patch_file demoFile wrongTs correctTs false
        = .ok ⟨true,
            [⟨"mvhd.creation", 8, [229, 127, 34, 176], [229, 183, 138, 200]⟩,
             ⟨"mvhd.modification", 12, [229, 127, 34, 176], [229, 183, 138, 200]⟩,
             ⟨"protobuf creation_time", 18, [160, 144, 132, 226, 210, 205, 4],
               [248, 250, 180, 151, 211, 205, 4]⟩,
             ⟨"first_gps_timestamp", 28, [128, 151, 152, 171, 184, 51],
               [192, 210, 242, 141, 198, 51]⟩,
             ⟨"ASCII filename date", 35,
               [50, 48, 50, 54, 48, 49, 48, 51, 95, 49, 57, 52, 54, 53, 54],
               [50, 48, 50, 54, 48, 50, 49, 53, 95, 49, 52, 51, 56, 48, 48]⟩,
             ⟨"UTF-16LE filename date", 59,
               [50, 0, 48, 0, 50, 0, 54, 0, 48, 0, 49, 0, 48, 0, 51, 0],
               [50, 0, 48, 0, 50, 0, 54, 0, 48, 0, 50, 0, 49, 0, 53, 0]⟩,
             ⟨"UTF-16LE filename time", 77,
               [49, 0, 57, 0, 52, 0, 54, 0, 53, 0, 54, 0],
               [49, 0, 52, 0, 51, 0, 56, 0, 48, 0, 48, 0]⟩],
            demoFileAfter⟩ ∧
      (Except.map (fun r => (r.cands.map Patch.ptype, r.success))
          (patch_file demoFileAfter wrongTs correctTs false)
        = .ok (["mvhd.creation", "mvhd.modification"], true)) :=
  ⟨by decide, by decide⟩

/-!  ### Scanner: specification of `strFind` and the inner find loop -/

theorem matchesAt_iff (d p : List Nat) (i : Nat) :
    matchesAt d p i = true ↔ (d.drop i).take p.length = p := by
  simp [matchesAt]

theorem matchesAt_le (d p : List Nat) (i : Nat) (h : matchesAt d p i = true) :
    p.length ≤ d.length - i := by
  rw [matchesAt_iff] at h
  have hl := congrArg List.length h
  rw [List.length_take, List.length_drop] at hl
  have := min_le_right p.length (d.length - i)
  omega

theorem matchesAt_add_le (d p : List Nat) (i : Nat) (hp : p ≠ [])
    (h : matchesAt d p i = true) : i + p.length ≤ d.length := by
  have h1 := matchesAt_le d p i h
  have h2 : 0 < p.length := List.length_pos.mpr hp
  omega

theorem matchesAt_prefix (B D p : List Nat) (i : Nat) (hpre : B <+: D)
    (h : matchesAt B p i = true) : matchesAt D p i = true := by
  obtain ⟨t, rfl⟩ := hpre
  have hlen := matchesAt_le B p i h
  rw [matchesAt_iff] at h ⊢
  rw [List.drop_append_eq_append_drop, List.take_append_eq_append_take, h, List.length_drop,
    show p.length - (B.length - i) = 0 from by omega]
  simp

theorem matchesAt_prefix_rev (B D p : List Nat) (i : Nat) (hpre : B <+: D)
    (hlen : i + p.length ≤ B.length) (h : matchesAt D p i = true) : matchesAt B p i = true := by
  obtain ⟨t, rfl⟩ := hpre
  rw [matchesAt_iff] at h ⊢
  rw [List.drop_append_eq_append_drop, List.take_append_eq_append_take, List.length_drop,
    show p.length - (B.length - i) = 0 from by omega] at h
  simpa using h

/-- The hits of `pattern` in `data` at positions `≥ pos` (what the repeated
`bytes.find` loop of the source computes), as a filtered range. -/
def findSpec (d p : List Nat) (pos : Nat) : List Nat :=
  (List.range (d.length + 1)).filter (fun i => decide (pos ≤ i) && matchesAt d p i)

/-- All hit positions of `pattern` in `data`. -/
def occList (d p : List Nat) : List Nat :=
  (List.range (d.length + 1)).filter (matchesAt d p)

theorem occList_pairwise (d p : List Nat) : (occList d p).Pairwise (· < ·) :=
  List.Pairwise.sublist (List.filter_sublist _) (List.pairwise_lt_range _)

theorem filter_ge_eq_dropWhile :
    ∀ (l : List Nat), l.Pairwise (· < ·) → ∀ pos : Nat,
      l.filter (fun i => decide (pos ≤ i)) = l.dropWhile (fun i => decide (i < pos)) := by
  intro l
  induction l with
  | nil => intro _ _; rfl
  | cons a t ih =>
    intro hp pos
    rw [List.pairwise_cons] at hp
    rw [List.filter_cons, List.dropWhile_cons]
    by_cases hpa : pos ≤ a
    · rw [if_pos (by simpa), if_neg (by simp; omega)]
      congr 1
      rw [List.filter_eq_self]
      intro x hx
      have := hp.1 x hx
      simp
      omega
    · rw [if_neg (by simp; omega), if_pos (by simp; omega)]
      exact ih hp.2 pos

theorem findSpec_eq_dropWhile (d p : List Nat) (pos : Nat) :
    findSpec d p pos = (occList d p).dropWhile (fun i => decide (i < pos)) := by
  have h1 : (occList d p).filter (fun i => decide (pos ≤ i)) = findSpec d p pos := by
    rw [occList, List.filter_filter]
    rfl
  rw [← h1, filter_ge_eq_dropWhile (occList d p) (occList_pairwise d p) pos]

theorem dropWhile_head_false {q : Nat → Bool} :
    ∀ {l : List Nat} {a : Nat} {t : List Nat}, l.dropWhile q = a :: t → q a = false := by
  intro l
  induction l with
  | nil => intro a t h; simp at h
  | cons x xs ih =>
    intro a t h
    rw [List.dropWhile_cons] at h
    split at h
    · exact ih h
    · rename_i hx
      cases h
      simpa using hx

theorem findSpec_head (d p : List Nat) (pos idx : Nat)
    (h : (findSpec d p pos).head? = some idx) :
    findSpec d p pos = idx :: findSpec d p (idx + 1)
      ∧ pos ≤ idx ∧ idx ≤ d.length ∧ matchesAt d p idx = true := by
  obtain ⟨rest, hrest⟩ := List.head?_eq_some_iff.mp h
  have hmem : idx ∈ findSpec d p pos := by rw [hrest]; exact List.mem_cons_self idx rest
  rw [findSpec, List.mem_filter, List.mem_range] at hmem
  obtain ⟨hrange, hfilt⟩ := hmem
  rw [Bool.and_eq_true, decide_eq_true_eq] at hfilt
  have e1 : (occList d p).dropWhile (fun i => decide (i < pos)) = idx :: rest := by
    rw [← findSpec_eq_dropWhile]
    exact hrest
  have hM : List.takeWhile (fun i => decide (i < pos)) (occList d p) ++ idx :: rest
      = occList d p := by
    rw [← e1]
    exact List.takeWhile_append_dropWhile _ _
  have hT : ∀ x ∈ List.takeWhile (fun i => decide (i < pos)) (occList d p), x < pos := by
    intro x hx
    have := List.mem_takeWhile_imp hx
    simpa using this
  have hsuf : (idx :: rest).Pairwise (· < ·) := by
    refine List.Pairwise.sublist ?_ (occList_pairwise d p)
    rw [← hM]
    exact (List.suffix_append _ _).sublist
  rw [List.pairwise_cons] at hsuf
  have htail : findSpec d p (idx + 1) = rest := by
    rw [findSpec_eq_dropWhile, ← hM, List.dropWhile_append]
    have hTnil : List.dropWhile (fun i => decide (i < idx + 1))
        (List.takeWhile (fun i => decide (i < pos)) (occList d p)) = [] := by
      rw [List.dropWhile_eq_nil_iff]
      intro x hx
      have := hT x hx
      simp
      omega
    rw [hTnil]
    simp only [List.isEmpty_nil, if_pos]
    rw [List.dropWhile_cons, if_pos (by simp)]
    cases hr : rest with
    | nil => rfl
    | cons b bs =>
      rw [List.dropWhile_cons, if_neg ?_]
      have hb : idx < b := by
        apply hsuf.1
        rw [hr]
        exact List.mem_cons_self b bs
      simp
      omega
  exact ⟨by rw [hrest, htail], hfilt.1, by omega, hfilt.2⟩

theorem findLoopAux_eq (d p : List Nat) :
    ∀ (fuel pos : Nat), d.length + 1 ≤ pos + fuel →
      findLoopAux d p fuel pos = findSpec d p pos := by
  intro fuel
  induction fuel with
  | zero =>
    intro pos h
    symm
    rw [show findLoopAux d p 0 pos = [] from rfl, findSpec, List.filter_eq_nil_iff]
    intro a ha
    rw [List.mem_range] at ha
    simp
    intro hpa
    omega
  | succ fuel ih =>
    intro pos h
    cases hs : strFind d p pos with
    | none =>
      have hnil : findSpec d p pos = [] := List.head?_eq_none_iff.mp hs
      simp only [findLoopAux, hs]
      rw [hnil]
    | some idx =>
      have hd : (findSpec d p pos).head? = some idx := hs
      obtain ⟨hcons, hpos, hle, _⟩ := findSpec_head d p pos idx hd
      simp only [findLoopAux, hs]
      rw [ih (idx + 1) (by omega), hcons]

theorem findLoop_eq (d p : List Nat) (pos : Nat) : findLoop d p pos = findSpec d p pos :=
  findLoopAux_eq d p (d.length + 1 - pos) pos (by omega)

theorem mem_findLoop (d p : List Nat) (hp : p ≠ []) (i : Nat) :
    i ∈ findLoop d p 0 ↔ matchesAt d p i = true := by
  rw [findLoop_eq, findSpec]
  simp only [List.mem_filter, List.mem_range, Bool.and_eq_true, decide_eq_true_eq]
  constructor
  · intro h
    exact h.2.2
  · intro h
    have := matchesAt_add_le d p i hp h
    have hl : 0 < p.length := List.length_pos.mpr hp
    exact ⟨by omega, by omega, h⟩

theorem findLoop_pairwise (d p : List Nat) : (findLoop d p 0).Pairwise (· < ·) := by
  rw [findLoop_eq, findSpec]
  exact List.Pairwise.sublist (List.filter_sublist _) (List.pairwise_lt_range _)

/-!  ### Scanner: the chunked window loop -/

theorem findChunksAux_nil (p : List Nat) (fuel fp : Nat) (pt : List Nat) :
    findChunksAux p fuel [] fp pt = [] := by
  cases fuel <;> rfl

theorem findChunksAux_cons (p : List Nat) (fuel x : Nat) (xs : List Nat) (fp : Nat)
    (pt : List Nat) :
    findChunksAux p (fuel + 1) (x :: xs) fp pt =
      ((findLoop (pt ++ (x :: xs).take _CHUNK_SIZE) p 0).map (fun idx => (fp - pt.length) + idx))
        ++ findChunksAux p fuel ((x :: xs).drop _CHUNK_SIZE)
            (fp + ((x :: xs).take _CHUNK_SIZE).length)
            (if p.length ≤ ((x :: xs).take _CHUNK_SIZE).length
              then ((x :: xs).take _CHUNK_SIZE).drop (((x :: xs).take _CHUNK_SIZE).length - p.length)
              else (x :: xs).take _CHUNK_SIZE) := rfl

/-- Characterization of one window's (absolute-offset) hits: `B` is the search
buffer, a prefix of the file suffix starting at `sb`. -/
theorem window_hits (file p B : List Nat) (sb : Nat) (hp : p ≠ [])
    (hpre : B <+: file.drop sb) (i : Nat) :
    i ∈ (findLoop B p 0).map (fun idx => sb + idx) ↔
      (sb ≤ i ∧ matchesAt file p i = true ∧ i + p.length ≤ sb + B.length) := by
  rw [List.mem_map]
  constructor
  · rintro ⟨j, hj, rfl⟩
    rw [mem_findLoop B p hp] at hj
    have hlen := matchesAt_add_le B p j hp hj
    refine ⟨by omega, ?_, by omega⟩
    have h2 := matchesAt_prefix B (file.drop sb) p j hpre hj
    rw [matchesAt_iff, List.drop_drop] at h2
    rw [matchesAt_iff]
    exact h2
  · rintro ⟨h1, h2, h3⟩
    refine ⟨i - sb, ?_, by omega⟩
    rw [mem_findLoop B p hp]
    apply matchesAt_prefix_rev B (file.drop sb) p (i - sb) hpre (by omega)
    rw [matchesAt_iff, List.drop_drop, show sb + (i - sb) = i from by omega, ← matchesAt_iff]
    exact h2

/-- Main invariant of the chunked scan.  `rest` is the unread suffix of the
file, `fp` the number of bytes consumed, `pt` the carried overlap (the last
`min(len(pattern), fp)` consumed bytes while scanning continues).  From such a
state the loop returns exactly the hit offsets `≥ fp - len(pt)` (in
non-decreasing order), provided at least one chunk remains; an occurrence can
be reported once per window buffer containing it. -/
theorem findChunksAux_spec (file p : List Nat) (hp : p ≠ []) (hC : p.length ≤ _CHUNK_SIZE) :
    ∀ (fuel : Nat) (rest : List Nat) (fp : Nat) (pt : List Nat),
      rest.length ≤ fuel →
      pt.length ≤ fp →
      pt ++ rest = file.drop (fp - pt.length) →
      (rest ≠ [] → pt.length = min p.length fp) →
      ((rest = [] → findChunksAux p fuel rest fp pt = []) ∧
        (rest ≠ [] → ∀ i, i ∈ findChunksAux p fuel rest fp pt ↔
          (fp - pt.length ≤ i ∧ matchesAt file p i = true)) ∧
        (findChunksAux p fuel rest fp pt).Pairwise (· ≤ ·) ∧
        (∀ i ∈ findChunksAux p fuel rest fp pt, fp - pt.length ≤ i)) := by
  have hC1 : 0 < _CHUNK_SIZE := by norm_num [_CHUNK_SIZE]
  have hL1 : 0 < p.length := List.length_pos.mpr hp
  intro fuel
  induction fuel with
  | zero =>
    intro rest fp pt hfuel hfp hsplit htail
    have hnil : rest = [] := List.length_eq_zero.mp (by omega)
    subst hnil
    refine ⟨fun _ => findChunksAux_nil p 0 fp pt, fun h => absurd rfl h, ?_, ?_⟩
    · rw [findChunksAux_nil]
      exact List.Pairwise.nil
    · rw [findChunksAux_nil]
      intro i hi
      simp at hi
  | succ fuel ih =>
    intro rest fp pt hfuel hfp hsplit htail
    cases rest with
    | nil =>
      refine ⟨fun _ => findChunksAux_nil p (fuel + 1) fp pt, fun h => absurd rfl h, ?_, ?_⟩
      · rw [findChunksAux_nil]
        exact List.Pairwise.nil
      · rw [findChunksAux_nil]
        intro i hi
        simp at hi
    | cons x xs =>
      have hlc : (x :: xs).length = xs.length + 1 := by simp
      have hptlen : pt.length = min p.length fp := htail (by simp)
      -- abbreviations
      have hRlen : 0 < (x :: xs).length := by simp
      have hchlen : ((x :: xs).take _CHUNK_SIZE).length = min _CHUNK_SIZE (x :: xs).length :=
        List.length_take _ _
      have hRfp : (x :: xs) = file.drop fp := by
        have h1 := congrArg (List.drop pt.length) hsplit
        rw [List.drop_left, List.drop_drop] at h1
        rw [h1, show fp - pt.length + pt.length = fp from by omega]
      have hflen : (x :: xs).length = file.length - fp := by
        rw [hRfp, List.length_drop]
      have hfplt : fp < file.length := by omega
      -- the window buffer is a prefix of the file suffix at the search base
      have hBtake : pt ++ (x :: xs).take _CHUNK_SIZE
          = (file.drop (fp - pt.length)).take (pt.length + _CHUNK_SIZE) := by
        rw [← hsplit, List.take_append_eq_append_take,
          List.take_of_length_le (show pt.length ≤ pt.length + _CHUNK_SIZE from by omega),
          show pt.length + _CHUNK_SIZE - pt.length = _CHUNK_SIZE from by omega]
      have hBpre : pt ++ (x :: xs).take _CHUNK_SIZE <+: file.drop (fp - pt.length) := by
        rw [hBtake]
        exact List.take_prefix _ _
      have hBlen : (pt ++ (x :: xs).take _CHUNK_SIZE).length
          = pt.length + ((x :: xs).take _CHUNK_SIZE).length := List.length_append _ _
      have hw := fun i => window_hits file p (pt ++ (x :: xs).take _CHUNK_SIZE)
        (fp - pt.length) hp hBpre i
      rw [findChunksAux_cons]
      by_cases hxs : (x :: xs).drop _CHUNK_SIZE = []
      · -- final chunk: the tail call returns nothing and the window covers
        -- the whole remaining file
        have hRC : (x :: xs).length ≤ _CHUNK_SIZE := by
          have := congrArg List.length hxs
          rw [List.length_drop] at this
          simp at this
          omega
        rw [hxs, findChunksAux_nil, List.append_nil]
        have hcover : ∀ i, matchesAt file p i = true → fp - pt.length ≤ i →
            i + p.length ≤ fp - pt.length + (pt ++ (x :: xs).take _CHUNK_SIZE).length := by
          intro i hocc _
          have h1 := matchesAt_add_le file p i hp hocc
          rw [hBlen, hchlen]
          omega
        refine ⟨fun h => absurd h (by simp), fun _ i => ?_, ?_, ?_⟩
        · rw [hw i]
          constructor
          · rintro ⟨h1, h2, _⟩
            exact ⟨h1, h2⟩
          · rintro ⟨h1, h2⟩
            exact ⟨h1, h2, hcover i h2 h1⟩
        · exact (findLoop_pairwise _ _).map _ (fun a b hab => by omega)
        · intro i hi
          exact ((hw i).mp hi).1
      · -- another chunk follows: the overlap of the next state is the last
        -- `len(pattern)` bytes of this chunk
        have hRC : _CHUNK_SIZE < (x :: xs).length := by
          by_contra hcon
          exact hxs (List.drop_eq_nil_of_le (by omega))
        have hchC : ((x :: xs).take _CHUNK_SIZE).length = _CHUNK_SIZE := by
          rw [hchlen]
          omega
        rw [if_pos (by omega : p.length ≤ ((x :: xs).take _CHUNK_SIZE).length)]
        have hptlen' : (((x :: xs).take _CHUNK_SIZE).drop
            (((x :: xs).take _CHUNK_SIZE).length - p.length)).length = p.length := by
          rw [List.length_drop]
          omega
        have hsplit' : ((x :: xs).take _CHUNK_SIZE).drop
              (((x :: xs).take _CHUNK_SIZE).length - p.length) ++ (x :: xs).drop _CHUNK_SIZE
            = file.drop (fp + ((x :: xs).take _CHUNK_SIZE).length
                - (((x :: xs).take _CHUNK_SIZE).drop
                    (((x :: xs).take _CHUNK_SIZE).length - p.length)).length) := by
          rw [hptlen', hchC]
          have e1 : ((x :: xs).take _CHUNK_SIZE).drop (_CHUNK_SIZE - p.length)
                ++ (x :: xs).drop _CHUNK_SIZE
              = (x :: xs).drop (_CHUNK_SIZE - p.length) := by
            conv_rhs => rw [← List.take_append_drop _CHUNK_SIZE (x :: xs)]
            rw [List.drop_append_eq_append_drop, hchC,
              show _CHUNK_SIZE - p.length - _CHUNK_SIZE = 0 from by omega, List.drop_zero]
          rw [e1, hRfp, List.drop_drop,
            show fp + (_CHUNK_SIZE - p.length) = fp + _CHUNK_SIZE - p.length from by omega]
      -- apply the induction hypothesis to the next window state
        obtain ⟨ihn1, ihn2, ihn3, ihn4⟩ := ih ((x :: xs).drop _CHUNK_SIZE)
          (fp + ((x :: xs).take _CHUNK_SIZE).length)
          (((x :: xs).take _CHUNK_SIZE).drop (((x :: xs).take _CHUNK_SIZE).length - p.length))
          (by rw [List.length_drop]; omega)
          (by rw [hptlen']; omega)
          hsplit'
          (fun _ => by rw [hptlen', hchC]; omega)
        have hbase' : fp + ((x :: xs).take _CHUNK_SIZE).length
            - (((x :: xs).take _CHUNK_SIZE).drop
                (((x :: xs).take _CHUNK_SIZE).length - p.length)).length
            = fp + _CHUNK_SIZE - p.length := by
          rw [hptlen', hchC]
        refine ⟨fun h => absurd h (by simp), fun _ i => ?_, ?_, ?_⟩
        · rw [List.mem_append, hw i, ihn2 hxs i, hbase']
          rw [hBlen, hchC]
          constructor
          · rintro (⟨h1, h2, _⟩ | ⟨h1, h2⟩)
            · exact ⟨h1, h2⟩
            · exact ⟨by omega, h2⟩
          · rintro ⟨h1, h2⟩
            by_cases hcase : i + p.length ≤ fp - pt.length + (pt.length + _CHUNK_SIZE)
            · exact Or.inl ⟨h1, h2, hcase⟩
            · exact Or.inr ⟨by omega, h2⟩
        · rw [List.pairwise_append]
          refine ⟨?_, ihn3, ?_⟩
          · exact (findLoop_pairwise _ _).map _ (fun a b hab => by omega)
          · intro a ha b hb
            have h1 := ((hw a).mp ha).2.2
            have h2 := ihn4 b hb
            rw [hbase'] at h2
            rw [hBlen, hchC] at h1
            omega
        · intro i hi
          rcases List.mem_append.mp hi with hi | hi
          · exact ((hw i).mp hi).1
          · have := ihn4 i hi
            rw [hbase'] at this
            omega

/-- Amended C2: for every file and non-empty pattern (of at most one window's
length), `_find_pattern` returns offsets in non-decreasing order, and an
offset appears in the result exactly when the pattern occurs there — every
occurrence is reported (also across window boundaries) and every reported
offset is a real occurrence.  Strict ascending order with no duplicates does
not hold in general: see the companion counterexample, where an occurrence
ending exactly at a window boundary is reported twice. -/
theorem find_pattern_sound_complete (file p : List Nat) (hp : p ≠ [])
    (hC : p.length ≤ _CHUNK_SIZE) :
    (∀ i, i ∈ _find_pattern file p ↔ matchesAt file p i = true) ∧
      (_find_pattern file p).Pairwise (· ≤ ·) := by
  obtain ⟨h1, h2, h3, -⟩ := findChunksAux_spec file p hp hC (file.length + 1) file 0 []
    (by omega) (by simp) (by simp) (fun _ => by simp)
  have hfind : _find_pattern file p = findChunksAux p (file.length + 1) file 0 [] := rfl
  by_cases hf : file = []
  · subst hf
    rw [hfind, h1 rfl]
    constructor
    · intro i
      simp only [List.not_mem_nil, false_iff]
      intro hm
      have h4 := matchesAt_add_le [] p i hp hm
      have h5 : 0 < p.length := List.length_pos.mpr hp
      rw [List.length_nil] at h4
      omega
    · exact List.Pairwise.nil
  · constructor
    · intro i
      rw [hfind, h2 hf i]
      simp
    · rw [hfind]
      exact h3

/-- Witness for the amended C2, at a singleton pattern and the empty file. -/
theorem find_pattern_sound_complete_witness :
    (([1] : List Nat) ≠ [] ∧ ([1] : List Nat).length ≤ _CHUNK_SIZE) ∧
      ((∀ i, i ∈ _find_pattern [] [1] ↔ matchesAt [] [1] i = true) ∧
        (_find_pattern [] [1]).Pairwise (· ≤ ·)) :=
  ⟨⟨by decide, by decide⟩, find_pattern_sound_complete [] [1] (by decide) (by decide)⟩

/-- Helper for the window-boundary counterexample: in a block of `1`s followed
by `7 7` and at most one further non-`7` byte, the pattern `[7, 7]` occurs
exactly at the end of the block of `1`s. -/
theorem matchesAt_block (m : Nat) (t : List Nat) (ht1 : t.take 1 ≠ [7]) (ht2 : t.length ≤ 1)
    (i : Nat) :
    matchesAt (List.replicate m 1 ++ ([7, 7] ++ t)) [7, 7] i = true ↔ i = m := by
  constructor
  · intro h
    by_contra hne
    rw [matchesAt_iff, List.drop_append_eq_append_drop, List.drop_replicate,
      List.length_replicate] at h
    rcases Nat.lt_or_ge i m with hlt | hge
    · rw [show i - m = 0 from by omega, List.drop_zero,
        show m - i = (m - i - 1) + 1 from by omega, List.replicate_succ,
        List.cons_append] at h
      simp at h
    · have hk : i - m = 1 ∨ i - m = 2 ∨ 3 ≤ i - m := by omega
      rw [show m - i = 0 from by omega] at h
      simp only [List.replicate_zero, List.nil_append] at h
      rcases hk with hk | hk | hk
      · rw [hk] at h
        simp at h
        exact ht1 h
      · have hd2 : List.drop 2 ([7, 7] ++ t) = t := rfl
        rw [hk, hd2] at h
        have hlen := congrArg List.length h
        rw [List.length_take] at hlen
        simp at hlen
        omega
      · have hd3 : List.drop (i - m) ([7, 7] ++ t) = t.drop (i - m - 2) := by
          rw [List.drop_append_eq_append_drop, List.drop_eq_nil_of_le (by simp; omega),
            List.nil_append, show (([7, 7] : List Nat)).length = 2 from rfl]
        rw [hd3, List.drop_eq_nil_of_le (by omega)] at h
        simp at h
  · rintro rfl
    rw [matchesAt_iff, List.drop_append_eq_append_drop, List.drop_replicate,
      List.length_replicate, Nat.sub_self]
    simp

/-- A filter over `range n` whose predicate holds exactly at `m < n` yields
the singleton `[m]`. -/
theorem range_filter_single (P : Nat → Bool) (m : Nat) :
    ∀ n : Nat, m < n → (∀ i, P i = true ↔ i = m) → (List.range n).filter P = [m] := by
  intro n
  induction n with
  | zero => intro h; omega
  | succ n ih =>
    intro hm hP
    rw [List.range_succ, List.filter_append]
    by_cases hc : m < n
    · rw [ih hc hP]
      have hPn : ¬ P n = true := fun h2 => by
        have := (hP n).mp h2
        omega
      simp [List.filter_cons, hPn]
    · have hmn : m = n := by omega
      subst hmn
      have h1 : (List.range m).filter P = [] := by
        rw [List.filter_eq_nil_iff]
        intro a ha
        rw [List.mem_range] at ha
        intro h2
        have := (hP a).mp h2
        omega
      rw [h1]
      simp [List.filter_cons, (hP m).mpr rfl]

/-- A search buffer whose `[7, 7]` occurrences are exactly `{m}` makes the
inner find loop return `[m]`. -/
theorem findLoop_single (d : List Nat) (m : Nat) (hm : m ≤ d.length)
    (hP : ∀ i, matchesAt d [7, 7] i = true ↔ i = m) :
    findLoop d [7, 7] 0 = [m] := by
  rw [findLoop_eq, findSpec]
  exact range_filter_single _ m (d.length + 1) (by omega) (fun i => by simpa using hP i)

/-- The window-boundary counterexample file: `_CHUNK_SIZE - 2` filler bytes, a
`[7, 7]` occurrence whose last byte is the final byte of the first 64 MiB
window, and one further byte so that a second window exists. -/
def dupFile : List Nat := List.replicate (_CHUNK_SIZE - 2) 1 ++ [7, 7, 1]

/-- Counterexample to C2 as stated: `[7, 7]` occurs in `dupFile` exactly once
(at offset `_CHUNK_SIZE - 2`, ending exactly at the boundary of the first
64 MiB window), yet `_find_pattern` reports that offset twice — once from the
first window and once from the overlap bytes prepended to the second window —
so the scanner's result is not duplicate-free. -/
theorem boundary_occurrence_reported_twice :
    _find_pattern dupFile [7, 7] = [_CHUNK_SIZE - 2, _CHUNK_SIZE - 2] ∧
      ¬ (_find_pattern dupFile [7, 7]).Nodup ∧
      (∀ i, matchesAt dupFile [7, 7] i = true ↔ i = _CHUNK_SIZE - 2) := by
  have hCval : _CHUNK_SIZE = 67108864 := rfl
  have hchar : ∀ i, matchesAt dupFile [7, 7] i = true ↔ i = _CHUNK_SIZE - 2 := by
    intro i
    rw [show dupFile = List.replicate (_CHUNK_SIZE - 2) 1 ++ ([7, 7] ++ [1]) from rfl]
    exact matchesAt_block (_CHUNK_SIZE - 2) [1] (by decide) (by decide) i
  have hdlen : dupFile.length = _CHUNK_SIZE + 1 := by
    rw [dupFile, List.length_append, List.length_replicate]
    simp
    omega
  have chunkEq : dupFile.take _CHUNK_SIZE = List.replicate (_CHUNK_SIZE - 2) 1 ++ [7, 7] := by
    rw [dupFile, List.take_append_eq_append_take,
      List.take_of_length_le (by rw [List.length_replicate]; omega),
      List.length_replicate, show _CHUNK_SIZE - (_CHUNK_SIZE - 2) = 2 from by omega]
    rfl
  have dropEq : dupFile.drop _CHUNK_SIZE = [1] := by
    rw [dupFile, List.drop_append_eq_append_drop,
      List.drop_eq_nil_of_le (by rw [List.length_replicate]; omega),
      List.length_replicate, show _CHUNK_SIZE - (_CHUNK_SIZE - 2) = 2 from by omega,
      List.nil_append]
    rfl
  have chunkLen : (dupFile.take _CHUNK_SIZE).length = _CHUNK_SIZE := by
    rw [chunkEq, List.length_append, List.length_replicate]
    simp
    omega
  have hloop1 : findLoop (List.replicate (_CHUNK_SIZE - 2) 1 ++ [7, 7]) [7, 7] 0
      = [_CHUNK_SIZE - 2] := by
    apply findLoop_single
    · rw [List.length_append, List.length_replicate]
      simp
    · intro i
      rw [show List.replicate (_CHUNK_SIZE - 2) 1 ++ [7, 7]
          = List.replicate (_CHUNK_SIZE - 2) 1 ++ ([7, 7] ++ []) from by simp]
      exact matchesAt_block (_CHUNK_SIZE - 2) [] (by decide) (by decide) i
  have hloop2 : findLoop [7, 7, 1] [7, 7] 0 = [0] := by decide
  have hptail : (dupFile.take _CHUNK_SIZE).drop (_CHUNK_SIZE - 2) = [7, 7] := by
    rw [chunkEq, List.drop_append_eq_append_drop, List.drop_eq_nil_of_le (by simp),
      List.nil_append, List.length_replicate, Nat.sub_self, List.drop_zero]
  have hcons1 : dupFile = 1 :: (List.replicate (_CHUNK_SIZE - 3) 1 ++ [7, 7, 1]) := by
    rw [dupFile, show _CHUNK_SIZE - 2 = (_CHUNK_SIZE - 3) + 1 from by omega,
      List.replicate_succ, List.cons_append]
  have main : _find_pattern dupFile [7, 7] = [_CHUNK_SIZE - 2, _CHUNK_SIZE - 2] := by
    show findChunksAux [7, 7] (dupFile.length + 1) dupFile 0 [] = _
    rw [hdlen]
    conv_lhs => rw [hcons1]
    rw [findChunksAux_cons, ← hcons1, List.nil_append, chunkLen, dropEq]
    rw [show (([7, 7] : List Nat)).length = 2 from rfl]
    rw [if_pos (show (2 : Nat) ≤ _CHUNK_SIZE from by omega)]
    rw [hptail, chunkEq, hloop1]
    rw [show (0 : Nat) + _CHUNK_SIZE = _CHUNK_SIZE from by omega]
    rw [findChunksAux_cons]
    rw [show ([1] : List Nat).take _CHUNK_SIZE = [1] from
        List.take_of_length_le (by simp; omega),
      show ([7, 7] : List Nat) ++ [1] = [7, 7, 1] from rfl, hloop2,
      show ([1] : List Nat).drop _CHUNK_SIZE = [] from List.drop_eq_nil_of_le (by simp; omega),
      findChunksAux_nil]
    simp
  refine ⟨main, ?_, hchar⟩
  rw [main]
  simp
